import Mathlib

/-!
# Verification of the AUC-ROC metrics engine

Shallow embedding of the computational core of `src/pages/Page 1 Definition.py`:
the confusion-matrix loop shared by `plot1` and `make_tpr_fpr`, the TPR/FPR rate
formulas, the threshold sweep, and the synthetic score generator
`DummyClassifier.predict`.

Modelling conventions:
- Python floats are modelled as exact rationals (`ℚ`); the smoothing constant
  `1e-20` becomes `1 / 10 ^ 20`.
- Labels are arbitrary machine integers (`ℤ`), since the Python code accepts any
  integer array; indexing a Python 2-element list with an integer succeeds for
  indices `0, 1, -1, -2` (negative indices wrap: `-1 ↦ 1`, `-2 ↦ 0`) and raises
  `IndexError` otherwise.  The embedding returns `Option`: `none` models the
  raised `IndexError`.
- The loop `zip(labels, probabilities >= t)` truncates to the shorter operand,
  exactly as `List.zip` does.
-/

set_option autoImplicit false

namespace AucRoc

/-- The 2×2 confusion matrix `[[tn, fp], [fn, tp]]` of the Python code:
`confusion_matrix[actual][predicted]` with row `0 = [TN, FP]` and
row `1 = [FN, TP]` (actual index first, predicted index second). -/
structure ConfusionMatrix where
  tn : ℕ
  fp : ℕ
  fn : ℕ
  tp : ℕ
  deriving Repr, DecidableEq

/-- Sum of the four cells of a confusion matrix. -/
def ConfusionMatrix.total (m : ConfusionMatrix) : ℕ :=
  m.tn + m.fp + m.fn + m.tp

/-- One entry of `(probabilities >= threshold).astype(np.uint8)`:
`true` encodes predicted label `1` (score `>=` threshold, inclusive),
`false` encodes predicted label `0`. -/
def predLabel (p t : ℚ) : Bool :=
  decide (t ≤ p)

/-- Python indexing of the 2-element list `confusion_matrix` by the integer
`actual`: indices `0` and `-2` select row 0 (returned as `some false`),
indices `1` and `-1` select row 1 (`some true`); any other integer raises
`IndexError`, modelled as `none`. -/
def pyRow (i : ℤ) : Option Bool :=
  if i = 0 ∨ i = -2 then some false
  else if i = 1 ∨ i = -1 then some true
  else none

/-- The increment `confusion_matrix[actual][predicted] += 1` once the row
(`actual`) and column (`predicted`) indices are resolved: `actual = true` means
row 1, `predicted = true` means column 1. -/
def bump (m : ConfusionMatrix) (actual predicted : Bool) : ConfusionMatrix :=
  match actual, predicted with
  | false, false => { m with tn := m.tn + 1 }
  | false, true  => { m with fp := m.fp + 1 }
  | true,  false => { m with fn := m.fn + 1 }
  | true,  true  => { m with tp := m.tp + 1 }

/-- The per-sample loop
`for actual, predicted in zip(labels, (probabilities >= t).astype(np.uint8)):
confusion_matrix[actual][predicted] += 1`, running over the zipped
`(score, label)` pairs with accumulator `m`.  A label outside the valid Python
index range `{-2, -1, 0, 1}` raises `IndexError` (`none`). -/
def cmAux (t : ℚ) (m : ConfusionMatrix) : List (ℚ × ℤ) → Option ConfusionMatrix
  | [] => some m
  | (p, l) :: rest =>
    match pyRow l with
    | none => none
    | some r => cmAux t (bump m r (predLabel p t)) rest

/-- The confusion-matrix computation of `plot1` (lines 35–37) and of the inner
loop of `make_tpr_fpr` (lines 99–101): start from `[[0,0],[0,0]]` and run the
per-sample loop over `zip(labels, probabilities >= threshold)`. -/
def confusion_matrix (probabilities : List ℚ) (labels : List ℤ) (threshold : ℚ) :
    Option ConfusionMatrix :=
  cmAux threshold ⟨0, 0, 0, 0⟩ (probabilities.zip labels)

/-- The smoothing constant `1e-20` of the source, as an exact rational. -/
def eps : ℚ := 1 / 10 ^ 20

/-- The TPR formula `tp / (tp + fn + 1e-20)` of `make_tpr_fpr` line 104 and
`f1` line 362. -/
def tprOf (m : ConfusionMatrix) : ℚ :=
  (m.tp : ℚ) / ((m.tp : ℚ) + (m.fn : ℚ) + eps)

/-- The FPR formula `fp / (fp + tn + 1e-20)` of `make_tpr_fpr` line 105 and
`f1` line 363. -/
def fprOf (m : ConfusionMatrix) : ℚ :=
  (m.fp : ℚ) / ((m.fp : ℚ) + (m.tn : ℚ) + eps)

/-- Exact rational value of the IEEE-754 binary64 double nearest the literal
`1e-20` (the value Python gives that literal): `1e-20` lies in
`[2 ^ (-67), 2 ^ (-66))` and rounds to mantissa `6646139978924579` at exponent
`-119`. -/
def eps64 : ℚ :=
  6646139978924579 / 2 ^ 119

/-- Float64 value of the denominator `s + 1e-20` for a natural count `s` (the
cell counts are integers, exactly representable for every feasible input
length, i.e. below `2 ^ 53`).  For `s ≥ 1`, `1e-20 < 2 ^ (-53) ≤ ulp(s) / 2`,
so round-to-nearest absorbs the term and returns `s` unchanged; for `s = 0`
the addition is exact and returns `eps64`. -/
def addF (s : ℕ) : ℚ :=
  if s = 0 then eps64 else (s : ℚ)

/-- Float64-faithful value of the TPR expression `tp / (tp + fn + 1e-20)`
(line 104 / line 362): the two additions are evaluated as float64 does
(`addF`), and the final correctly-rounded division is kept as the exact
quotient — which is the float64 result itself whenever that quotient is
exactly representable, in particular at the values `0` and `1` asserted by the
theorems below. -/
def tprF (m : ConfusionMatrix) : ℚ :=
  (m.tp : ℚ) / addF (m.tp + m.fn)

/-- Float64-faithful value of the FPR expression `fp / (fp + tn + 1e-20)`
(line 105 / line 363); see `tprF`. -/
def fprF (m : ConfusionMatrix) : ℚ :=
  (m.fp : ℚ) / addF (m.fp + m.tn)

/-- Sweep over a list of thresholds: for each threshold build the confusion
matrix and prepend the derived TPR and FPR to the two output sequences, so the
outputs follow the threshold order. -/
def sweepAux (probabilities : List ℚ) (labels : List ℤ) :
    List ℚ → Option (List ℚ × List ℚ)
  | [] => some ([], [])
  | t :: rest => do
    let m ← confusion_matrix probabilities labels t
    let (tprs, fprs) ← sweepAux probabilities labels rest
    pure (tprOf m :: tprs, fprOf m :: fprs)

/-- The sweep `make_tpr_fpr` (lines 91–106): thresholds
`t = 0/10, 1/10, …, 10/10` (the loop `for t in range(11): t = t / 10`),
returning the TPR series and the FPR series in that order. -/
def make_tpr_fpr (probabilities : List ℚ) (labels : List ℤ) :
    Option (List ℚ × List ℚ) :=
  sweepAux probabilities labels ((List.range 11).map (fun i : ℕ => (i : ℚ) / 10))

/-- Modelled from the spec: `sweepThresholds`/`rocSweep` with an arbitrary step
count `K` (the source file hard-codes `K = 10` in `make_tpr_fpr`; no
parameterised sweep exists under `src/`).  For `i` from `0` to `K` inclusive,
threshold `t = i / K`; compute confusion matrix and rates; append to the output
sequences. -/
def rocSweep (probabilities : List ℚ) (labels : List ℤ) (K : ℕ) :
    Option (List ℚ × List ℚ) :=
  sweepAux probabilities labels ((List.range (K + 1)).map (fun i : ℕ => (i : ℚ) / (K : ℚ)))

set_option linter.unusedVariables false

/-- The class parameters of `DummyClassifier.__init__`. -/
structure DummyClassifier where
  pos_label_mean : ℚ
  pos_label_std : ℚ
  neg_label_mean : ℚ
  neg_label_std : ℚ

/-- The generator `DummyClassifier.predict` (lines 16–29).  `randn` models the
deterministic stream of standard-normal draws produced by `np.random.randn`
after `np.random.seed(40)`; because the source reseeds with the same seed `40`
before each of the two draws, both classes read the same stream from index 0.
`X` participates only through `assert X.ndim == 2` and the unused shape
unpacking, captured here by its (2-dimensional) type; its entries are never
read.  The result is the positive-class draws (one per label equal to `1`,
scaled by `pos_label_std` and shifted by `pos_label_mean`) concatenated with
the negative-class draws (one per label equal to `0`). -/
def predict (randn : ℕ → ℚ) (clf : DummyClassifier) (X : List (List ℚ))
    (y : List ℤ) : List ℚ :=
  let npos := (y.filter (fun l => l = 1)).length
  let nneg := (y.filter (fun l => l = 0)).length
  ((List.range npos).map (fun i => randn i * clf.pos_label_std + clf.pos_label_mean))
    ++ ((List.range nneg).map (fun i => randn i * clf.neg_label_std + clf.neg_label_mean))

/-! ## Totalised confusion matrix

On inputs whose labels are valid Python indices, the loop never raises; this
total counterpart makes the computed matrix available as a plain function. -/

/-- The row selected by a valid Python index (`1` and `-1` select row 1;
`0` and `-2` select row 0). -/
def rowT (l : ℤ) : Bool :=
  decide (l = 1 ∨ l = -1)

/-- Total counterpart of `cmAux`, defined for labels that are valid Python
indices. -/
def cmTAux (t : ℚ) (m : ConfusionMatrix) : List (ℚ × ℤ) → ConfusionMatrix
  | [] => m
  | (p, l) :: rest => cmTAux t (bump m (rowT l) (predLabel p t)) rest

/-- Total counterpart of `confusion_matrix`, defined for labels that are valid
Python indices. -/
def cmT (probabilities : List ℚ) (labels : List ℤ) (threshold : ℚ) :
    ConfusionMatrix :=
  cmTAux threshold ⟨0, 0, 0, 0⟩ (probabilities.zip labels)

/-- A label is a valid Python index into the 2-element matrix. -/
def validIdx (l : ℤ) : Prop :=
  l = 0 ∨ l = -2 ∨ l = 1 ∨ l = -1

instance (l : ℤ) : Decidable (validIdx l) := by
  unfold validIdx
  infer_instance

theorem pyRow_eq_some_rowT (l : ℤ) (h : validIdx l) : pyRow l = some (rowT l) := by
  rcases h with h | h | h | h <;> subst h <;> rfl

theorem pyRow_eq_none (l : ℤ) (h : ¬ validIdx l) : pyRow l = none := by
  unfold pyRow
  unfold validIdx at h
  push_neg at h
  rw [if_neg, if_neg]
  · rintro (h1 | h1) <;> simp [h1] at h
  · rintro (h1 | h1) <;> simp [h1] at h

theorem cmAux_eq_of_valid (t : ℚ) (pairs : List (ℚ × ℤ)) :
    ∀ m : ConfusionMatrix, (∀ pr ∈ pairs, validIdx pr.2) →
      cmAux t m pairs = some (cmTAux t m pairs) := by
  induction pairs with
  | nil => intro m _; rfl
  | cons hd tl ih =>
    intro m hv
    obtain ⟨p, l⟩ := hd
    have hl : validIdx l := hv (p, l) (List.mem_cons_self _ _)
    show cmAux t m ((p, l) :: tl) = _
    rw [cmAux, pyRow_eq_some_rowT l hl]
    exact ih _ (fun pr hpr => hv pr (List.mem_cons_of_mem _ hpr))

theorem cmAux_eq_none_of_bad (t : ℚ) (pairs : List (ℚ × ℤ)) :
    ∀ m : ConfusionMatrix, (∃ pr ∈ pairs, ¬ validIdx pr.2) →
      cmAux t m pairs = none := by
  induction pairs with
  | nil => rintro m ⟨pr, hpr, _⟩; cases hpr
  | cons hd tl ih =>
    rintro m ⟨pr, hpr, hbad⟩
    obtain ⟨p, l⟩ := hd
    rw [cmAux]
    rcases List.mem_cons.mp hpr with heq | hmem
    · subst heq
      rw [pyRow_eq_none _ hbad]
    · cases hc : pyRow l with
      | none => rfl
      | some r => exact ih _ ⟨pr, hmem, hbad⟩

theorem bump_total (m : ConfusionMatrix) (a p : Bool) :
    (bump m a p).total = m.total + 1 := by
  cases a <;> cases p <;> simp [bump, ConfusionMatrix.total] <;> omega

theorem cmTAux_total (t : ℚ) (pairs : List (ℚ × ℤ)) :
    ∀ m : ConfusionMatrix, (cmTAux t m pairs).total = m.total + pairs.length := by
  induction pairs with
  | nil => intro m; rfl
  | cons hd tl ih =>
    intro m
    obtain ⟨p, l⟩ := hd
    rw [cmTAux, ih, bump_total]
    simp [Nat.add_comm, Nat.add_assoc, Nat.add_left_comm]

theorem cmT_total (probabilities : List ℚ) (labels : List ℤ) (t : ℚ) :
    (cmT probabilities labels t).total
      = min probabilities.length labels.length := by
  rw [cmT, cmTAux_total]
  simp [ConfusionMatrix.total, List.length_zip]

theorem confusion_matrix_eq_of_valid (probabilities : List ℚ) (labels : List ℤ)
    (t : ℚ) (hv : ∀ l ∈ labels, validIdx l) :
    confusion_matrix probabilities labels t
      = some (cmT probabilities labels t) := by
  apply cmAux_eq_of_valid
  intro pr hpr
  exact hv pr.2 (List.of_mem_zip hpr).2

/-! ## Per-class row sums -/

theorem bump_posrow (m : ConfusionMatrix) (a p : Bool) :
    (bump m a p).fn + (bump m a p).tp
      = m.fn + m.tp + (if a then 1 else 0) := by
  cases a <;> cases p <;> simp [bump]
  · omega
  · omega

theorem bump_negrow (m : ConfusionMatrix) (a p : Bool) :
    (bump m a p).tn + (bump m a p).fp
      = m.tn + m.fp + (if a then 0 else 1) := by
  cases a <;> cases p <;> simp [bump]
  · omega
  · omega

theorem cmTAux_posrow (t : ℚ) (pairs : List (ℚ × ℤ)) :
    ∀ m : ConfusionMatrix,
      (cmTAux t m pairs).fn + (cmTAux t m pairs).tp
        = m.fn + m.tp + pairs.countP (fun pr => rowT pr.2) := by
  induction pairs with
  | nil => intro m; simp [cmTAux]
  | cons hd tl ih =>
    intro m
    obtain ⟨p, l⟩ := hd
    rw [cmTAux, ih, bump_posrow, List.countP_cons]
    by_cases h : rowT l <;> simp [h] <;> omega

theorem cmTAux_negrow (t : ℚ) (pairs : List (ℚ × ℤ)) :
    ∀ m : ConfusionMatrix,
      (cmTAux t m pairs).tn + (cmTAux t m pairs).fp
        = m.tn + m.fp + pairs.countP (fun pr => ! rowT pr.2) := by
  induction pairs with
  | nil => intro m; simp [cmTAux]
  | cons hd tl ih =>
    intro m
    obtain ⟨p, l⟩ := hd
    rw [cmTAux, ih, bump_negrow, List.countP_cons]
    by_cases h : rowT l <;> simp [h] <;> omega

/-! ## The threshold sweep on valid inputs -/

theorem sweepAux_eq_of_valid (probabilities : List ℚ) (labels : List ℤ)
    (hv : ∀ l ∈ labels, validIdx l) (ts : List ℚ) :
    sweepAux probabilities labels ts
      = some (ts.map (fun t => tprOf (cmT probabilities labels t)),
              ts.map (fun t => fprOf (cmT probabilities labels t))) := by
  induction ts with
  | nil => rfl
  | cons hd tl ih =>
    rw [sweepAux, confusion_matrix_eq_of_valid _ _ _ hv, ih]
    rfl

theorem rocSweep_eq_of_valid (probabilities : List ℚ) (labels : List ℤ) (K : ℕ)
    (hv : ∀ l ∈ labels, validIdx l) :
    rocSweep probabilities labels K
      = some (((List.range (K + 1)).map
                 (fun i : ℕ => tprOf (cmT probabilities labels ((i : ℚ) / (K : ℚ))))),
              ((List.range (K + 1)).map
                 (fun i : ℕ => fprOf (cmT probabilities labels ((i : ℚ) / (K : ℚ)))))) := by
  rw [rocSweep, sweepAux_eq_of_valid _ _ hv]
  simp [List.map_map, Function.comp]

theorem validIdx_of_binary {l : ℤ} (h : l = 0 ∨ l = 1) : validIdx l := by
  rcases h with h | h <;> subst h
  · exact Or.inl rfl
  · exact Or.inr (Or.inr (Or.inl rfl))

/-! ## The claims -/

/-- C1: for scores and labels of equal length with labels in `{0,1}` and any
threshold, the per-sample loop succeeds and the four confusion-matrix cells are
non-negative integers summing to the input length. -/
theorem C1_cells_sum_to_length (probabilities : List ℚ) (labels : List ℤ)
    (t : ℚ) (hlen : probabilities.length = labels.length)
    (hl : ∀ l ∈ labels, l = 0 ∨ l = 1) :
    ∃ m : ConfusionMatrix, confusion_matrix probabilities labels t = some m
      ∧ 0 ≤ m.tn ∧ 0 ≤ m.fp ∧ 0 ≤ m.fn ∧ 0 ≤ m.tp
      ∧ m.tn + m.fp + m.fn + m.tp = labels.length := by
  have hv : ∀ l ∈ labels, validIdx l := fun l hml => validIdx_of_binary (hl l hml)
  refine ⟨cmT probabilities labels t, confusion_matrix_eq_of_valid _ _ _ hv,
    Nat.zero_le _, Nat.zero_le _, Nat.zero_le _, Nat.zero_le _, ?_⟩
  have htot := cmT_total probabilities labels t
  rw [ConfusionMatrix.total] at htot
  rw [htot, hlen, min_self]

/-- Witness for C1 at `scores = [2, 0]`, `labels = [1, 0]`, `threshold = 1`. -/
theorem C1_witness :
    ∃ m : ConfusionMatrix, confusion_matrix [2, 0] [1, 0] 1 = some m
      ∧ 0 ≤ m.tn ∧ 0 ≤ m.fp ∧ 0 ≤ m.fn ∧ 0 ≤ m.tp
      ∧ m.tn + m.fp + m.fn + m.tp = ([1, 0] : List ℤ).length :=
  C1_cells_sum_to_length [2, 0] [1, 0] 1 (by decide) (by decide)

/-- C4: the threshold comparison is inclusive — a sample whose score equals the
threshold is predicted positive, so it lands in TP when its label is 1 and in
FP when its label is 0. -/
theorem C4_threshold_inclusive (p t : ℚ) :
    predLabel t t = true ∧ (predLabel p t = true ↔ t ≤ p)
      ∧ confusion_matrix [t] [1] t = some ⟨0, 0, 0, 1⟩
      ∧ confusion_matrix [t] [0] t = some ⟨0, 1, 0, 0⟩ := by
  refine ⟨by simp [predLabel], by simp [predLabel], ?_, ?_⟩ <;>
    simp [confusion_matrix, cmAux, pyRow, predLabel, bump, List.zip]

/-- C6 counterexample: a length-mismatched input does not fail; the loop
silently zips and returns a matrix (here counting only the first sample). -/
theorem C6_counterexample :
    ¬ (([(2 : ℚ), 3] : List ℚ).length = ([1] : List ℤ).length)
      ∧ confusion_matrix [2, 3] [1] 1 = some ⟨0, 0, 0, 1⟩ := by
  constructor
  · decide
  · simp [confusion_matrix, cmAux, pyRow, predLabel, bump, List.zip]

/-- C6 as amended: on a length mismatch the loop raises no error; `zip`
truncates to the shorter input and the cells sum to
`min (len scores) (len labels)`. -/
theorem C6_zip_truncates (probabilities : List ℚ) (labels : List ℤ) (t : ℚ)
    (hl : ∀ l ∈ labels, l = 0 ∨ l = 1) :
    ∃ m : ConfusionMatrix, confusion_matrix probabilities labels t = some m
      ∧ m.tn + m.fp + m.fn + m.tp
          = min probabilities.length labels.length := by
  have hv : ∀ l ∈ labels, validIdx l := fun l hml => validIdx_of_binary (hl l hml)
  refine ⟨cmT probabilities labels t, confusion_matrix_eq_of_valid _ _ _ hv, ?_⟩
  have htot := cmT_total probabilities labels t
  rw [ConfusionMatrix.total] at htot
  exact htot

/-- Witness for C6 at the mismatched input `scores = [2, 3]`, `labels = [1]`. -/
theorem C6_witness :
    ∃ m : ConfusionMatrix, confusion_matrix [2, 3] [1] 1 = some m
      ∧ m.tn + m.fp + m.fn + m.tp
          = min ([(2 : ℚ), 3] : List ℚ).length ([1] : List ℤ).length :=
  C6_zip_truncates [2, 3] [1] 1 (by decide)

/-- C7 counterexample: the label `-1` is outside `{0,1}` yet the computation
does not fail — Python negative indexing silently counts the sample in row 1
(here as a true positive). -/
theorem C7_counterexample :
    confusion_matrix [2] [-1] 1 = some ⟨0, 0, 0, 1⟩ := by
  simp [confusion_matrix, cmAux, pyRow, predLabel, bump, List.zip]

/-- C7 as amended: a label that is an invalid Python index (outside
`{-2,-1,0,1}`) raises `IndexError`; but the labels `-1` and `-2` are valid
negative indices and are silently counted in rows 1 and 0 respectively
(`pyRow l = pyRow (l + 2)`), so only labels `≥ 2` or `≤ -3` fail fast. -/
theorem C7_label_indexing (probabilities : List ℚ) (labels : List ℤ) (t : ℚ)
    (hlen : probabilities.length = labels.length) :
    ((∃ l ∈ labels, ¬ validIdx l) → confusion_matrix probabilities labels t = none)
      ∧ ((∀ l ∈ labels, validIdx l) →
          ∃ m : ConfusionMatrix, confusion_matrix probabilities labels t = some m
            ∧ m.tn + m.fp + m.fn + m.tp = labels.length)
      ∧ (∀ l : ℤ, l < 0 → validIdx l → pyRow l = pyRow (l + 2))
      ∧ (∀ l : ℤ, ¬ validIdx l ↔ (2 ≤ l ∨ l ≤ -3)) := by
  refine ⟨?_, ?_, ?_, ?_⟩
  · rintro ⟨l, hml, hbad⟩
    obtain ⟨i, hi, hil⟩ := List.getElem_of_mem hml
    have hiz : i < (probabilities.zip labels).length := by
      rw [List.length_zip]
      omega
    apply cmAux_eq_none_of_bad
    refine ⟨(probabilities.zip labels).get ⟨i, hiz⟩, List.get_mem _ _ hiz, ?_⟩
    have hz : (probabilities.zip labels).get ⟨i, hiz⟩
        = (probabilities.get ⟨i, by omega⟩, labels.get ⟨i, hi⟩) := by
      simpa using List.getElem_zip (h := hiz)
    rw [hz]
    simpa [hil] using hbad
  · intro hv
    refine ⟨cmT probabilities labels t, confusion_matrix_eq_of_valid _ _ _ hv, ?_⟩
    have htot := cmT_total probabilities labels t
    rw [ConfusionMatrix.total] at htot
    rw [htot, hlen, min_self]
  · intro l hneg hval
    rcases hval with h | h | h | h <;> subst h
    · omega
    · rfl
    · omega
    · rfl
  · intro l
    unfold validIdx
    omega

/-- Witness for C7 at `scores = [2]`, `labels = [5]`: the out-of-range label
raises `IndexError` (`none`). -/
theorem C7_witness : confusion_matrix [2] [5] 1 = none :=
  (C7_label_indexing [2] [5] 1 (by decide)).1 ⟨5, by decide, by decide⟩

/-- C2: the rates are `tp / (tp + fn + 1e-20)` and `fp / (fp + tn + 1e-20)`;
on a sample set with no actual positives the TPR is exactly `0`, and with no
actual negatives the FPR is exactly `0`, with no error raised. -/
theorem C2_eps_smoothing (probabilities : List ℚ) (labels : List ℤ) (t : ℚ)
    (m : ConfusionMatrix) (hl : ∀ l ∈ labels, l = 0 ∨ l = 1)
    (hm : confusion_matrix probabilities labels t = some m) :
    tprOf m = (m.tp : ℚ) / ((m.tp : ℚ) + (m.fn : ℚ) + 1 / 10 ^ 20)
      ∧ fprOf m = (m.fp : ℚ) / ((m.fp : ℚ) + (m.tn : ℚ) + 1 / 10 ^ 20)
      ∧ ((1 : ℤ) ∉ labels → tprOf m = 0)
      ∧ ((0 : ℤ) ∉ labels → fprOf m = 0) := by
  have hv : ∀ l ∈ labels, validIdx l := fun l hml => validIdx_of_binary (hl l hml)
  rw [confusion_matrix_eq_of_valid _ _ _ hv] at hm
  have hmeq : m = cmT probabilities labels t := (Option.some.inj hm).symm
  refine ⟨rfl, rfl, ?_, ?_⟩
  · intro h1
    have hrow : (cmT probabilities labels t).fn + (cmT probabilities labels t).tp = 0 := by
      rw [cmT, cmTAux_posrow]
      simp only [Nat.zero_add]
      rw [List.countP_eq_zero]
      intro pr hpr
      have hmem := (List.of_mem_zip hpr).2
      rcases hl pr.2 hmem with h | h
      · simp [rowT, h]
      · exact absurd (h ▸ hmem) h1
    have htp : m.tp = 0 := by rw [hmeq]; omega
    simp [tprOf, htp]
  · intro h0
    have hrow : (cmT probabilities labels t).tn + (cmT probabilities labels t).fp = 0 := by
      rw [cmT, cmTAux_negrow]
      simp only [Nat.zero_add]
      rw [List.countP_eq_zero]
      intro pr hpr
      have hmem := (List.of_mem_zip hpr).2
      rcases hl pr.2 hmem with h | h
      · exact absurd (h ▸ hmem) h0
      · simp [rowT, h]
    have hfp : m.fp = 0 := by rw [hmeq]; omega
    simp [fprOf, hfp]

/-- Witness for C2 on an all-negative sample set `labels = [0, 0]`,
`scores = [2, 2]`, `threshold = 1`: the TPR is `0`. -/
theorem C2_witness : tprOf ⟨0, 2, 0, 0⟩ = 0 :=
  (C2_eps_smoothing [2, 2] [0, 0] 1 ⟨0, 2, 0, 0⟩ (by decide)
      (by simp [confusion_matrix, cmAux, pyRow, predLabel, bump, List.zip])).2.2.1
    (by decide)

/-- Helper: the float64 denominator `s + 1e-20` is always positive. -/
theorem addF_pos (s : ℕ) : 0 < addF s := by
  by_cases h : s = 0
  · rw [addF, if_pos h]
    norm_num [eps64]
  · rw [addF, if_neg h]
    exact_mod_cast Nat.pos_of_ne_zero h

/-- Helper: the float64 denominator `s + 1e-20` is at least `s`. -/
theorem le_addF (s : ℕ) : (s : ℚ) ≤ addF s := by
  by_cases h : s = 0
  · subst h
    rw [addF, if_pos rfl]
    norm_num [eps64]
  · rw [addF, if_neg h]

/-- C8 counterexample: on `scores = [2, 3]`, `labels = [1, 1]`,
`threshold = 1` the matrix is `TP = 2`, `FN = 0`; the numerator is positive,
yet the program's float64 TPR is `2 / (2 + 0 + 1e-20) = 2 / 2.0`, exactly
`1.0` — not strictly below `1` as the claim asserts. -/
theorem C8_counterexample :
    confusion_matrix [2, 3] [1, 1] 1 = some ⟨0, 0, 0, 2⟩
      ∧ 0 < (ConfusionMatrix.mk 0 0 0 2).tp
      ∧ tprF ⟨0, 0, 0, 2⟩ = 1 := by
  refine ⟨?_, by decide, ?_⟩
  · simp [confusion_matrix, cmAux, pyRow, predLabel, bump, List.zip]
  · norm_num [tprF, addF]

/-- C8 as amended: each float64 rate lies in `[0, 1]` (not `[0, 1)`): it is
exactly `0` when its numerator is `0` and strictly positive when the numerator
is positive, but it equals exactly `1.0` whenever the numerator is positive
and the other denominator cell is `0`, because float64 absorbs the `1e-20`
term into any count `≥ 1`.  The strict bound `< 1` holds only in the
exact-rational idealization of the formula, where the `ε` survives the
addition (final two conjuncts). -/
theorem C8_rates_float_range (m : ConfusionMatrix) :
    (0 ≤ tprF m ∧ tprF m ≤ 1) ∧ (0 ≤ fprF m ∧ fprF m ≤ 1)
      ∧ (m.tp = 0 → tprF m = 0) ∧ (m.fp = 0 → fprF m = 0)
      ∧ (0 < m.tp → 0 < tprF m) ∧ (0 < m.fp → 0 < fprF m)
      ∧ (m.fn = 0 → 0 < m.tp → tprF m = 1)
      ∧ (m.tn = 0 → 0 < m.fp → fprF m = 1)
      ∧ (0 ≤ tprOf m ∧ tprOf m < 1) ∧ (0 ≤ fprOf m ∧ fprOf m < 1) := by
  have heps : (0 : ℚ) < eps := by norm_num [eps]
  have htn : (0 : ℚ) ≤ (m.tn : ℚ) := Nat.cast_nonneg _
  have hfp : (0 : ℚ) ≤ (m.fp : ℚ) := Nat.cast_nonneg _
  have hfn : (0 : ℚ) ≤ (m.fn : ℚ) := Nat.cast_nonneg _
  have htp : (0 : ℚ) ≤ (m.tp : ℚ) := Nat.cast_nonneg _
  have hdt : (0 : ℚ) < (m.tp : ℚ) + (m.fn : ℚ) + eps := by linarith
  have hdf : (0 : ℚ) < (m.fp : ℚ) + (m.tn : ℚ) + eps := by linarith
  have hat := addF_pos (m.tp + m.fn)
  have haf := addF_pos (m.fp + m.tn)
  refine ⟨⟨div_nonneg htp hat.le, ?_⟩, ⟨div_nonneg hfp haf.le, ?_⟩,
    ?_, ?_, ?_, ?_, ?_, ?_, ?_, ?_⟩
  · rw [tprF, div_le_one hat]
    calc (m.tp : ℚ) ≤ ((m.tp + m.fn : ℕ) : ℚ) := by exact_mod_cast Nat.le_add_right _ _
    _ ≤ addF (m.tp + m.fn) := le_addF _
  · rw [fprF, div_le_one haf]
    calc (m.fp : ℚ) ≤ ((m.fp + m.tn : ℕ) : ℚ) := by exact_mod_cast Nat.le_add_right _ _
    _ ≤ addF (m.fp + m.tn) := le_addF _
  · intro h
    simp [tprF, h]
  · intro h
    simp [fprF, h]
  · intro h
    exact div_pos (by exact_mod_cast h) hat
  · intro h
    exact div_pos (by exact_mod_cast h) haf
  · intro h0 hpos
    rw [tprF, h0, Nat.add_zero, addF, if_neg (Nat.pos_iff_ne_zero.mp hpos)]
    exact div_self (Nat.cast_ne_zero.mpr hpos.ne')
  · intro h0 hpos
    rw [fprF, h0, Nat.add_zero, addF, if_neg (Nat.pos_iff_ne_zero.mp hpos)]
    exact div_self (Nat.cast_ne_zero.mpr hpos.ne')
  · refine ⟨div_nonneg htp hdt.le, ?_⟩
    rw [tprOf, div_lt_one hdt]
    linarith
  · refine ⟨div_nonneg hfp hdf.le, ?_⟩
    rw [fprOf, div_lt_one hdf]
    linarith

/-- Witness for C8: at concrete matrices, a zero numerator gives rate exactly
`0`, and a degenerate matrix with `TN = 0 < FP` gives FPR exactly `1.0`. -/
theorem C8_float_witness : tprF ⟨5, 0, 7, 0⟩ = 0 ∧ fprF ⟨0, 3, 0, 0⟩ = 1 :=
  ⟨(C8_rates_float_range ⟨5, 0, 7, 0⟩).2.2.1 rfl,
   (C8_rates_float_range ⟨0, 3, 0, 0⟩).2.2.2.2.2.2.2.1 rfl (by decide)⟩

/-- C3: for valid binary labels and positive step count `K`, the sweep returns
two sequences of length exactly `K + 1`, the entry at index `i` is the rate of
the confusion matrix at threshold `i / K`, the thresholds increase with the
index, and at `K = 10` the parametric sweep coincides with the source's
`make_tpr_fpr`. -/
theorem C3_sweep_shape (probabilities : List ℚ) (labels : List ℤ) (K : ℕ)
    (hK : 0 < K) (hl : ∀ l ∈ labels, l = 0 ∨ l = 1) :
    ∃ tprs fprs : List ℚ,
      rocSweep probabilities labels K = some (tprs, fprs)
        ∧ tprs.length = K + 1 ∧ fprs.length = K + 1
        ∧ (∀ i : ℕ, i < K + 1 →
            tprs[i]? = some (tprOf (cmT probabilities labels ((i : ℚ) / (K : ℚ))))
              ∧ fprs[i]? = some (fprOf (cmT probabilities labels ((i : ℚ) / (K : ℚ)))))
        ∧ (∀ i j : ℕ, i < j → j ≤ K → ((i : ℚ) / (K : ℚ)) < ((j : ℚ) / (K : ℚ)))
        ∧ rocSweep probabilities labels 10 = make_tpr_fpr probabilities labels := by
  have hv : ∀ l ∈ labels, validIdx l := fun l hml => validIdx_of_binary (hl l hml)
  refine ⟨_, _, rocSweep_eq_of_valid _ _ K hv, ?_, ?_, ?_, ?_, ?_⟩
  · rw [List.length_map, List.length_range]
  · rw [List.length_map, List.length_range]
  · intro i hi
    constructor <;> rw [List.getElem?_map, List.getElem?_range hi, Option.map_some']
  · intro i j hij hjK
    have hKQ : (0 : ℚ) < (K : ℚ) := by exact_mod_cast hK
    rw [div_lt_div_iff_of_pos_right hKQ]
    exact_mod_cast hij
  · rw [rocSweep, make_tpr_fpr]
    norm_num

/-- Witness for C3 at the empty sample set with `K = 2`. -/
theorem C3_witness :
    ∃ tprs fprs : List ℚ,
      rocSweep [] [] 2 = some (tprs, fprs)
        ∧ tprs.length = 2 + 1 ∧ fprs.length = 2 + 1
        ∧ (∀ i : ℕ, i < 2 + 1 →
            tprs[i]? = some (tprOf (cmT [] [] ((i : ℚ) / ((2 : ℕ) : ℚ))))
              ∧ fprs[i]? = some (fprOf (cmT [] [] ((i : ℚ) / ((2 : ℕ) : ℚ)))))
        ∧ (∀ i j : ℕ, i < j → j ≤ 2 → ((i : ℚ) / ((2 : ℕ) : ℚ)) < ((j : ℚ) / ((2 : ℕ) : ℚ)))
        ∧ rocSweep [] [] 10 = make_tpr_fpr [] [] :=
  C3_sweep_shape [] [] 2 (by decide) (by decide)

/-- C5: at the documented example input (`labels = [1,1,0,0]`,
`scores = [0.9, 0.8, 0.3, 0.1]`, `threshold = 0.5`) the matrix is
`{(1,1): 2, (1,0): 0, (0,1): 0, (0,0): 2}` (actual index first, predicted
second), and in the program's float64 arithmetic — where `2 + 1e-20` absorbs
the `1e-20` term — the derived TPR is exactly `1.0` and the FPR exactly
`0.0`. -/
theorem C5_documented_example :
    confusion_matrix [9/10, 8/10, 3/10, 1/10] [1, 1, 0, 0] (1/2)
        = some ⟨2, 0, 0, 2⟩
      ∧ tprF ⟨2, 0, 0, 2⟩ = 1
      ∧ fprF ⟨2, 0, 0, 2⟩ = 0 := by
  refine ⟨?_, ?_, ?_⟩
  · norm_num [confusion_matrix, cmAux, pyRow, predLabel, bump, List.zip]
  · norm_num [tprF, addF]
  · norm_num [fprF, addF]

/-- C9: the scores returned by `DummyClassifier.predict` do not depend on the
entries of the 2-dimensional feature matrix `X`, only on the counts of
`1`-labels and `0`-labels in `y` (and on the class parameters and the
internally reseeded random stream): any two inputs with equal label counts
produce identical score vectors. -/
theorem C9_predict_ignores_X (randn : ℕ → ℚ) (clf : DummyClassifier)
    (X1 X2 : List (List ℚ)) (y1 y2 : List ℤ)
    (hpos : (y1.filter (fun l => l = 1)).length
      = (y2.filter (fun l => l = 1)).length)
    (hneg : (y1.filter (fun l => l = 0)).length
      = (y2.filter (fun l => l = 0)).length) :
    predict randn clf X1 y1 = predict randn clf X2 y2 := by
  unfold predict
  rw [hpos, hneg]

/-- Witness for C9: two different feature matrices and two different label
orders with equal class counts yield the same scores. -/
theorem C9_witness :
    predict (fun i : ℕ => (i : ℚ)) ⟨3, 1, 2, 1⟩ [[5, 6], [7, 8]] [1, 0]
      = predict (fun i : ℕ => (i : ℚ)) ⟨3, 1, 2, 1⟩ [[9]] [0, 1] :=
  C9_predict_ignores_X (fun i : ℕ => (i : ℚ)) ⟨3, 1, 2, 1⟩ [[5, 6], [7, 8]] [[9]]
    [1, 0] [0, 1] (by decide) (by decide)

/-- Helper for C10: the sweep over any threshold list is all zeros on the
empty sample set. -/
theorem sweepAux_empty (ts : List ℚ) :
    sweepAux [] [] ts
      = some (List.replicate ts.length 0, List.replicate ts.length 0) := by
  induction ts with
  | nil => rfl
  | cons hd tl ih =>
    rw [sweepAux, ih]
    show Option.some _ = _
    simp [confusion_matrix, cmAux, List.zip, tprOf, fprOf, List.replicate]

/-- C10: on the empty sample set the confusion matrix is all zeros at every
threshold, and the sweep returns TPR `= 0` and FPR `= 0` at each of its `K + 1`
points (`11` points for the source's `make_tpr_fpr`), with no division-by-zero
error thanks to the `1e-20` denominator term. -/
theorem C10_empty_inputs :
    (∀ t : ℚ, confusion_matrix [] [] t = some ⟨0, 0, 0, 0⟩)
      ∧ make_tpr_fpr [] [] = some (List.replicate 11 0, List.replicate 11 0)
      ∧ (∀ K : ℕ, rocSweep [] [] K
          = some (List.replicate (K + 1) 0, List.replicate (K + 1) 0)) := by
  refine ⟨fun t => rfl, ?_, fun K => ?_⟩
  · rw [make_tpr_fpr, sweepAux_empty, List.length_map, List.length_range]
  · rw [rocSweep, sweepAux_empty, List.length_map, List.length_range]

end AucRoc
